import Mathlib

/-!
Verification development for the subprocess supervisor script
`src/DocumentTranslation.Web/run-doctr.py`.

Text is modelled as a list of characters with Python string semantics:
`splitNl` models `str.split(chr(10))`, `joinNl` models joining with a
newline, `strip` models `str.strip()` (over the common ASCII whitespace
characters), `hasSub` models the substring operator `in`, and `leads`
models prefix testing.  The filtering of captured stdout/stderr and the
outcome logic of `run_doctr` are translated directly from the source.
-/

namespace RunDoctr

abbrev Text := List Char

/-- ASCII whitespace as stripped by Python `str.strip()`. -/
def pySpace (c : Char) : Bool :=
  c = ' ' || c = '\t' || c = '\n' || c = '\r' || c = Char.ofNat 11 || c = Char.ofNat 12

/-- Drop leading whitespace (left part of `str.strip()`). -/
def stripL (t : Text) : Text := t.dropWhile pySpace

/-- Drop trailing whitespace (right part of `str.strip()`). -/
def stripR (t : Text) : Text := (t.reverse.dropWhile pySpace).reverse

/-- Python `str.strip()`: drop whitespace from both ends. -/
def strip (t : Text) : Text := stripR (stripL t)

/-- Prepend a character to the first piece of a split (helper of `splitNl`);
a character extends the current line. -/
def consHead (c : Char) : List Text → List Text
  | [] => [[c]]
  | l :: ls => (c :: l) :: ls

/-- Python `s.split(nl)` where `nl` is the newline character: split at every
newline, keeping empty pieces; the empty text yields one empty line. -/
def splitNl : Text → List Text
  | [] => [[]]
  | c :: t => if c = '\n' then [] :: splitNl t else consHead c (splitNl t)

/-- Python `nl.join(lines)` where `nl` is the newline character. -/
def joinNl : List Text → Text
  | [] => []
  | [l] => l
  | l :: l2 :: ls => l ++ '\n' :: joinNl (l2 :: ls)

/-- Python prefix test: `p` starts `l`. -/
def leads : Text → Text → Bool
  | [], _ => true
  | _ :: _, [] => false
  | a :: p, b :: l => a = b && leads p l

/-- Python substring operator `p in l`. -/
def hasSub (p : Text) : Text → Bool
  | [] => leads p []
  | c :: t => leads p (c :: t) || hasSub p t

/-- Noise phrases removed from captured stdout (source lines 114-117). -/
def stdout_noise : List Text :=
  ["Press Esc to cancel".data, "KeyAvailable".data]

/-- Noise phrases removed from captured stderr (source lines 128-138). -/
def stderr_noise : List Text :=
  ["Console.KeyAvailable".data,
   "console input has been redirected".data,
   "Timer_Elapsed".data,
   "System.Threading".data,
   "Cannot see if a key has been pressed".data,
   "Try Console.In.Peek".data,
   "ThreadPoolWorkQueue".data,
   "PortableThreadPool".data,
   "Unhandled exception. System.InvalidOperationException".data]

/-- A stdout line is kept when no stdout noise phrase occurs in it
(source lines 112-118; no blank-line check is performed there). -/
def stdoutKeep (l : Text) : Bool := !(stdout_noise.any (fun p => hasSub p l))

/-- A stderr line is kept when no stderr noise phrase occurs in it and
`line.strip()` is non-empty (source lines 126-140). -/
def stderrKeep (l : Text) : Bool :=
  !(stderr_noise.any (fun p => hasSub p l)) && !(strip l).isEmpty

/-- The stdout lines that survive filtering (source lines 112-118). -/
def keptStdout (s : Text) : List Text := (splitNl s).filter stdoutKeep

/-- The stderr lines that survive filtering (source lines 126-140). -/
def keptStderr (s : Text) : List Text := (splitNl s).filter stderrKeep

/-- `filtered_output` of the source (line 120): join the kept stdout lines
with newlines and strip the result. -/
def filter_stdout (s : Text) : Text := strip (joinNl (keptStdout s))

/-- `filtered_stderr` of the source (line 142): join the kept stderr lines
with newlines and strip the result. -/
def filter_stderr (s : Text) : Text := strip (joinNl (keptStderr s))

/-!
Process-supervision model.  The effectful parts of `run_doctr` are embedded
by making the environment explicit: whether the executable exists, how the
child run ends, and what inspecting a path with `Path.exists` / `Path.glob`
yields.  Observable actions (pty allocation, process start, the signal
escalation on timeout) are recorded as an event list.
-/

/-- Observable actions of one invocation, in order of occurrence. -/
inductive Event where
  | openPty
  | startProcess
  | sigtermGroup
  | sleepGrace
  | pollRecheck
  | sigkillGroup
deriving DecidableEq, Repr

/-- How the timeout escalation block (source lines 92-98) plays out.  The
whole block is wrapped in an exception handler that silently stops it:
the first `killpg` call can raise (nothing further happens), or the final
`killpg` with SIGKILL can raise after the recheck found the child alive. -/
inductive KillFlow where
  | clean (aliveAfterGrace : Bool)
  | failsAtTerm
  | failsAtKill
deriving DecidableEq, Repr

/-- Events produced by the escalation block (source lines 92-98):
SIGTERM to the group, a 2-second sleep, a liveness recheck via `poll`,
then SIGKILL to the group only if the child was still alive. -/
def escalationEvents : KillFlow → List Event
  | .clean alive =>
    [.sigtermGroup, .sleepGrace, .pollRecheck] ++ (if alive then [.sigkillGroup] else [])
  | .failsAtTerm => []
  | .failsAtKill => [.sigtermGroup, .sleepGrace, .pollRecheck]

/-- Result of probing a path during success inference (source lines 151-158):
either the `Path` operations raise, or they report whether the path exists
and whether `glob` matched at least one entry. -/
inductive DirProbe where
  | raises
  | ok (ex : Bool) (nonempty : Bool)
deriving DecidableEq, Repr

/-- How the child run ends, as observed through the `try` block of the
source: pty allocation raises, process launch raises, the 600-second
ceiling expires (with the output drained after the kill and the given
escalation flow), or the child exits with a code and captured streams. -/
inductive ChildRun where
  | ptyFails
  | launchFails
  | timesOut (stdout stderr : Text) (flow : KillFlow)
  | exits (code : Int) (stdout stderr : Text)
deriving DecidableEq, Repr

/-- The ambient facts one invocation runs against. -/
structure Env where
  cliExists : Bool
  child : ChildRun
  probe : Text → DirProbe

/-- The observable outcome of `run_doctr`: the returned exit code, which
messages were printed, what filtered output was emitted to each stream,
and the recorded events. -/
structure RunOutcome where
  code : Int
  toolNotFound : Bool
  timedOutMsg : Bool
  consoleIgnoredMsg : Bool
  errorMsg : Bool
  emittedStdout : Option Text
  emittedStderr : Option Text
  events : List Event
deriving DecidableEq, Repr

/-- Outcome with nothing printed, nothing emitted and no events. -/
def baseOutcome : RunOutcome :=
  { code := 0, toolNotFound := false, timedOutMsg := false, consoleIgnoredMsg := false,
    errorMsg := false, emittedStdout := none, emittedStderr := none, events := [] }

/-- Emission of one captured stream (source lines 110-122 and 124-144):
skipped when the raw capture is empty, and the filtered text is printed
only when it is non-empty. -/
def emit (f : Text → Text) (raw : Text) : Option Text :=
  if raw.isEmpty then none
  else if (f raw).isEmpty then none
  else some (f raw)

/-- The recognized sub-command keyword (source line 149). -/
def translateKw : Text := "translate".data

/-- Success inference (source lines 148-158): only when `"translate"` is an
element of the argument list and there are at least three arguments, probe
the path named by the third argument; success is inferred exactly when the
probe reports that it exists and `glob` found an entry.  A raising probe
is swallowed by the bare `except`. -/
def inferredSuccess (probe : Text → DirProbe) (args : List Text) : Bool :=
  if args.contains translateKw && decide (3 ≤ args.length) then
    match probe (args.getD 2 []) with
    | .ok ex ne => ex && ne
    | .raises => false
  else false

/-- The supervisor `run_doctr` (source lines 26-164), with the effectful
environment made explicit.  Mirrors the source control flow: missing
executable returns 1 before anything is allocated; an exception from pty
allocation or launch returns 1 with an error message; on timeout the
drained output is not emitted and 1 is returned with the timed-out
message; on a normal exit both streams are filtered and emitted, and a
non-zero code is rewritten to 0 when success is inferred, otherwise
returned unchanged. -/
def run_doctr (env : Env) (args : List Text) : RunOutcome :=
  if !env.cliExists then
    { baseOutcome with code := 1, toolNotFound := true }
  else
    match env.child with
    | .ptyFails =>
      { baseOutcome with code := 1, errorMsg := true }
    | .launchFails =>
      { baseOutcome with code := 1, errorMsg := true, events := [.openPty] }
    | .timesOut _ _ flow =>
      { baseOutcome with
        code := 1
        timedOutMsg := true
        events := [.openPty, .startProcess] ++ escalationEvents flow }
    | .exits c so se =>
      let outO := emit filter_stdout so
      let outE := emit filter_stderr se
      let ev := [Event.openPty, Event.startProcess]
      if c = 0 then
        { baseOutcome with
          code := 0
          emittedStdout := outO
          emittedStderr := outE
          events := ev }
      else if inferredSuccess env.probe args then
        { baseOutcome with
          code := 0
          consoleIgnoredMsg := true
          emittedStdout := outO
          emittedStderr := outE
          events := ev }
      else
        { baseOutcome with
          code := c
          emittedStdout := outO
          emittedStderr := outE
          events := ev }

/-!
Concrete environments and arguments used to instantiate the claims, and
helper notions used by the lemmas about filtering.
-/

def probeOutNonempty : Text → DirProbe := fun p =>
  if p = "/out".data then .ok true true else .raises

def envC1 : Env := { cliExists := true, child := .exits 1 [] [], probe := probeOutNonempty }

def argsTranslate : List Text := ["translate".data, "/in".data, "/out".data]

def envC2 : Env := { cliExists := true, child := .exits 5 [] [], probe := fun _ => .raises }

def envC3 : Env := { cliExists := true, child := .exits 2 [] [], probe := fun _ => .raises }

def envC5 : Env :=
  { cliExists := true
    child := .timesOut ("output line".data) ("diag".data) (.clean false)
    probe := fun _ => .raises }

def envC6 : Env := { cliExists := false, child := .exits 0 [] [], probe := fun _ => .raises }

def envC7 : Env :=
  { cliExists := true, child := .timesOut [] [] (.clean true), probe := fun _ => .raises }

def envC9 : Env := { cliExists := true, child := .exits 3 [] [], probe := fun _ => .raises }

/-- A line is non-blank when it has a character that is not whitespace;
this is the truthiness of Python `line.strip()`. -/
def nonblank (l : Text) : Bool := l.any (fun c => !pySpace c)

/-- `p` occurs as a contiguous substring of `l`. -/
def SubStr (p l : Text) : Prop := ∃ u v, l = u ++ p ++ v

/-- Effect of left-stripping on the line list of a joined text. -/
def stripLeadLines : List Text → List Text
  | [] => []
  | [x] => [stripL x]
  | x :: y :: ls => if nonblank x then stripL x :: y :: ls else stripLeadLines (y :: ls)

/-- Effect of right-stripping on the line list of a joined text, expressed
through reversal. -/
def stripTrailLines (K : List Text) : List Text :=
  ((stripLeadLines ((K.map List.reverse).reverse)).map List.reverse).reverse

/-!
Claims about the outcome logic.
-/

/-- C1: with the recognized keyword among the arguments, at least three
arguments, a non-zero child exit, and a probe of the third argument
reporting an existing location with at least one entry, the supervisor
returns exit code 0 and prints the console-error-ignored message. -/
theorem c1_inferred_success (env : Env) (args : List Text) (c : Int) (so se : Text)
    (hcli : env.cliExists = true) (hchild : env.child = .exits c so se) (hc : c ≠ 0)
    (hkw : args.contains translateKw = true) (hlen : 3 ≤ args.length)
    (hprobe : env.probe (args.getD 2 []) = .ok true true) :
    (run_doctr env args).code = 0 ∧ (run_doctr env args).consoleIgnoredMsg = true := by
  have hinf : inferredSuccess env.probe args = true := by
    unfold inferredSuccess
    rw [hkw, hprobe]
    simp [hlen]
  simp [run_doctr, hcli, hchild, hc, hinf]

/-- Witness for C1 at the spec scenario: arguments translate, /in, /out,
child exit code 1, and /out existing with one entry. -/
theorem c1_witness :
    (run_doctr envC1 argsTranslate).code = 0 ∧
    (run_doctr envC1 argsTranslate).consoleIgnoredMsg = true :=
  c1_inferred_success envC1 argsTranslate 1 [] [] rfl rfl (by decide) (by decide)
    (by decide) (by decide)

/-- When any of the three inference conditions fails, `inferredSuccess` is
false. -/
theorem inferredSuccess_eq_false (probe : Text → DirProbe) (args : List Text)
    (hnot : ¬(args.contains translateKw = true ∧ 3 ≤ args.length ∧
              probe (args.getD 2 []) = .ok true true)) :
    inferredSuccess probe args = false := by
  unfold inferredSuccess
  cases hkw : args.contains translateKw with
  | false => simp
  | true =>
    by_cases hlen : 3 ≤ args.length
    · rw [if_pos (by simp [hlen])]
      cases hp : probe (args.getD 2 []) with
      | raises => rfl
      | ok ex ne =>
        cases ex with
        | false => rfl
        | true =>
          cases ne with
          | false => rfl
          | true => exact absurd ⟨hkw, hlen, hp⟩ hnot
    · simp [hlen]

/-- C2: on a non-zero child exit, when the success-inference conditions are
not all met (keyword present, at least three arguments, probe of the third
argument reporting an existing non-empty location), the supervisor returns
the child's exit code unchanged. -/
theorem c2_propagates_nonzero (env : Env) (args : List Text) (c : Int) (so se : Text)
    (hcli : env.cliExists = true) (hchild : env.child = .exits c so se) (hc : c ≠ 0)
    (hnot : ¬(args.contains translateKw = true ∧ 3 ≤ args.length ∧
              env.probe (args.getD 2 []) = .ok true true)) :
    (run_doctr env args).code = c := by
  have hinf := inferredSuccess_eq_false env.probe args hnot
  simp [run_doctr, hcli, hchild, hc, hinf]

/-- Witness for C2: child exits 5 with an empty argument list, so the
supervisor returns 5. -/
theorem c2_witness : (run_doctr envC2 []).code = 5 :=
  c2_propagates_nonzero envC2 [] 5 [] [] rfl rfl (by decide) (by decide)

/-- Counterexample to C3: a genuine non-zero child exit without inferable
success is propagated unchanged, so a child exiting 2 makes the supervisor
return 2, not the claimed 1. -/
theorem c3_counterexample :
    (run_doctr envC3 []).code = 2 ∧ ¬((run_doctr envC3 []).code = 1) := by
  decide

/-- C3 amended: exit code 0 on success (including inferred success); 1 for
a missing executable, a pty or launch error, or a timeout; and on a genuine
non-zero child exit without inferable success the child's own exit code,
returned unchanged. -/
theorem c3_exit_codes (env : Env) (args : List Text) :
    (env.cliExists = false → (run_doctr env args).code = 1) ∧
    (env.cliExists = true → env.child = .ptyFails → (run_doctr env args).code = 1) ∧
    (env.cliExists = true → env.child = .launchFails → (run_doctr env args).code = 1) ∧
    (∀ so se flow, env.cliExists = true → env.child = .timesOut so se flow →
      (run_doctr env args).code = 1) ∧
    (∀ so se, env.cliExists = true → env.child = .exits 0 so se →
      (run_doctr env args).code = 0) ∧
    (∀ c so se, env.cliExists = true → env.child = .exits c so se → c ≠ 0 →
      inferredSuccess env.probe args = true → (run_doctr env args).code = 0) ∧
    (∀ c so se, env.cliExists = true → env.child = .exits c so se → c ≠ 0 →
      inferredSuccess env.probe args = false → (run_doctr env args).code = c) := by
  refine ⟨?_, ?_, ?_, ?_, ?_, ?_, ?_⟩
  · intro h; simp [run_doctr, h]
  · intro h1 h2; simp [run_doctr, h1, h2]
  · intro h1 h2; simp [run_doctr, h1, h2]
  · intro so se flow h1 h2; simp [run_doctr, h1, h2]
  · intro so se h1 h2; simp [run_doctr, h1, h2]
  · intro c so se h1 h2 h3 h4; simp [run_doctr, h1, h2, h3, h4]
  · intro c so se h1 h2 h3 h4; simp [run_doctr, h1, h2, h3, h4]

/-- Witness for the amended C3 at a child exiting 2 without inferable
success: the supervisor returns 2. -/
theorem c3_witness : (run_doctr envC3 []).code = 2 :=
  (c3_exit_codes envC3 []).2.2.2.2.2.2 2 [] [] rfl rfl (by decide) (by decide)

/-- C5 amended: on the timeout path the supervisor returns exit code 1 and
prints the timed-out message, but the output drained after the kill is
discarded: nothing is filtered or emitted to either stream. -/
theorem c5_timeout_outcome (env : Env) (args : List Text) (so se : Text) (flow : KillFlow)
    (hcli : env.cliExists = true) (hchild : env.child = .timesOut so se flow) :
    (run_doctr env args).code = 1 ∧ (run_doctr env args).timedOutMsg = true ∧
    (run_doctr env args).emittedStdout = none ∧
    (run_doctr env args).emittedStderr = none := by
  simp [run_doctr, hcli, hchild, baseOutcome]

/-- Counterexample to C5: the child timed out after producing output that
the noise filters would pass through unchanged, yet the supervisor emits
nothing on either stream. -/
theorem c5_counterexample :
    (run_doctr envC5 []).emittedStdout = none ∧
    (run_doctr envC5 []).emittedStderr = none ∧
    filter_stdout ("output line".data) = "output line".data ∧
    filter_stderr ("diag".data) = "diag".data ∧
    ("output line".data : Text) ≠ [] := by
  decide

/-- Witness for the amended C5 at a concrete timed-out invocation. -/
theorem c5_witness :
    (run_doctr envC5 []).code = 1 ∧ (run_doctr envC5 []).timedOutMsg = true ∧
    (run_doctr envC5 []).emittedStdout = none ∧
    (run_doctr envC5 []).emittedStderr = none :=
  c5_timeout_outcome envC5 [] ("output line".data) ("diag".data) (.clean false) rfl rfl

/-- C6: when the resolved executable does not exist, the supervisor returns
exit code 1 with the tool-not-found message, and no event occurs: no pty is
allocated and no process is started. -/
theorem c6_missing_executable (env : Env) (args : List Text)
    (h : env.cliExists = false) :
    (run_doctr env args).code = 1 ∧ (run_doctr env args).toolNotFound = true ∧
    (run_doctr env args).events = [] := by
  simp [run_doctr, h, baseOutcome]

/-- Witness for C6 at a concrete missing-executable invocation. -/
theorem c6_witness :
    (run_doctr envC6 []).code = 1 ∧ (run_doctr envC6 []).toolNotFound = true ∧
    (run_doctr envC6 []).events = [] :=
  c6_missing_executable envC6 [] rfl

/-- C7: on the timeout path, if SIGKILL is ever sent then the recorded
events are exactly pty allocation, process start, SIGTERM to the group, the
2-second grace sleep, the liveness recheck, and only then SIGKILL; and this
happens only when the child was still alive after the grace delay. -/
theorem c7_escalation_order (env : Env) (args : List Text) (so se : Text) (flow : KillFlow)
    (hcli : env.cliExists = true) (hchild : env.child = .timesOut so se flow)
    (h : Event.sigkillGroup ∈ (run_doctr env args).events) :
    (run_doctr env args).events =
      [.openPty, .startProcess, .sigtermGroup, .sleepGrace, .pollRecheck, .sigkillGroup] ∧
    flow = .clean true := by
  have hev : (run_doctr env args).events = [Event.openPty, Event.startProcess] ++
      escalationEvents flow := by
    simp [run_doctr, hcli, hchild]
  rw [hev] at h ⊢
  cases flow with
  | clean alive =>
    cases alive with
    | false => exact absurd h (by decide)
    | true => exact ⟨rfl, rfl⟩
  | failsAtTerm => exact absurd h (by decide)
  | failsAtKill => exact absurd h (by decide)

/-- Witness for C7 at a timed-out invocation whose child survived the grace
delay. -/
theorem c7_witness :
    (run_doctr envC7 []).events =
      [.openPty, .startProcess, .sigtermGroup, .sleepGrace, .pollRecheck, .sigkillGroup] ∧
    KillFlow.clean true = .clean true :=
  c7_escalation_order envC7 [] [] [] (.clean true) rfl rfl (by decide)

/-- C9: when the probe of the third argument raises (the third argument is
not a usable path), the exception is swallowed: the outcome is not
rewritten to success, the child's non-zero exit code is returned unchanged,
and no console-error-ignored message is printed. -/
theorem c9_probe_raises (env : Env) (args : List Text) (c : Int) (so se : Text)
    (hcli : env.cliExists = true) (hchild : env.child = .exits c so se) (hc : c ≠ 0)
    (hkw : args.contains translateKw = true) (_hlen : 3 ≤ args.length)
    (hprobe : env.probe (args.getD 2 []) = .raises) :
    (run_doctr env args).code = c ∧ (run_doctr env args).consoleIgnoredMsg = false := by
  have hinf : inferredSuccess env.probe args = false := by
    unfold inferredSuccess
    rw [hkw, hprobe]
    simp
  simp [run_doctr, hcli, hchild, hc, hinf, baseOutcome]

/-- Witness for C9 at a concrete invocation whose probe raises. -/
theorem c9_witness :
    (run_doctr envC9 argsTranslate).code = 3 ∧
    (run_doctr envC9 argsTranslate).consoleIgnoredMsg = false :=
  c9_probe_raises envC9 argsTranslate 3 [] [] rfl rfl (by decide) (by decide) (by decide)
    rfl

/-!
Facts about the text model: splitting and joining at newlines are mutually
inverse on newline-free lines, and `dropWhile` interacts with append.
-/

theorem consHead_ne_nil (c : Char) (L : List Text) : consHead c L ≠ [] := by
  cases L <;> simp [consHead]

theorem splitNl_ne_nil (t : Text) : splitNl t ≠ [] := by
  cases t with
  | nil => simp [splitNl]
  | cons c t =>
    simp only [splitNl]
    split
    · simp
    · exact consHead_ne_nil c (splitNl t)

theorem joinNl_cons_cons (x y : Text) (ls : List Text) :
    joinNl (x :: y :: ls) = x ++ '\n' :: joinNl (y :: ls) := rfl

theorem not_nl_mem_splitNl (t : Text) (l : Text) (hl : l ∈ splitNl t) : '\n' ∉ l := by
  induction t generalizing l with
  | nil =>
    simp only [splitNl, List.mem_singleton] at hl
    subst hl
    simp
  | cons c t ih =>
    simp only [splitNl] at hl
    by_cases hc : c = '\n'
    · rw [if_pos hc] at hl
      rcases List.mem_cons.mp hl with h | h
      · subst h; simp
      · exact ih l h
    · rw [if_neg hc] at hl
      cases hsp : splitNl t with
      | nil => exact absurd hsp (splitNl_ne_nil t)
      | cons x xs =>
        rw [hsp] at hl
        simp only [consHead] at hl
        rcases List.mem_cons.mp hl with h | h
        · subst h
          intro hmem
          rcases List.mem_cons.mp hmem with h1 | h1
          · exact hc h1.symm
          · exact ih x (by rw [hsp]; exact List.mem_cons_self x xs) h1
        · exact ih l (by rw [hsp]; exact List.mem_cons_of_mem x h)

theorem joinNl_splitNl (t : Text) : joinNl (splitNl t) = t := by
  induction t with
  | nil => rfl
  | cons c t ih =>
    simp only [splitNl]
    by_cases hc : c = '\n'
    · rw [if_pos hc, hc]
      cases hsp : splitNl t with
      | nil => exact absurd hsp (splitNl_ne_nil t)
      | cons x xs =>
        rw [hsp] at ih
        show joinNl ([] :: x :: xs) = '\n' :: t
        rw [joinNl_cons_cons, ih]
        rfl
    · rw [if_neg hc]
      cases hsp : splitNl t with
      | nil => exact absurd hsp (splitNl_ne_nil t)
      | cons x xs =>
        rw [hsp] at ih
        simp only [consHead]
        cases xs with
        | nil =>
          show c :: x = c :: t
          rw [show joinNl [x] = x from rfl] at ih
          rw [ih]
        | cons y ys =>
          rw [joinNl_cons_cons] at ih
          rw [joinNl_cons_cons, List.cons_append, ih]

theorem splitNl_no_nl (x : Text) (h : '\n' ∉ x) : splitNl x = [x] := by
  induction x with
  | nil => rfl
  | cons c x ih =>
    have hc : c ≠ '\n' := fun hcc => h (hcc ▸ List.mem_cons_self c x)
    have hx : '\n' ∉ x := fun hm => h (List.mem_cons_of_mem c hm)
    simp only [splitNl, if_neg hc, ih hx, consHead]

theorem splitNl_append_nl (x r : Text) (h : '\n' ∉ x) :
    splitNl (x ++ '\n' :: r) = x :: splitNl r := by
  induction x with
  | nil => simp [splitNl]
  | cons c x ih =>
    have hc : c ≠ '\n' := fun hcc => h (hcc ▸ List.mem_cons_self c x)
    have hx : '\n' ∉ x := fun hm => h (List.mem_cons_of_mem c hm)
    simp only [List.cons_append, splitNl, if_neg hc, List.append_eq, ih hx, consHead]

theorem splitNl_joinNl (K : List Text) (hne : K ≠ [])
    (hfree : ∀ l ∈ K, '\n' ∉ l) : splitNl (joinNl K) = K := by
  induction K with
  | nil => exact absurd rfl hne
  | cons x K ih =>
    cases K with
    | nil => exact splitNl_no_nl x (hfree x (List.mem_cons_self x []))
    | cons y ls =>
      rw [joinNl_cons_cons]
      rw [splitNl_append_nl x _ (hfree x (List.mem_cons_self ..))]
      rw [ih (by simp) (fun l hl => hfree l (List.mem_cons_of_mem x hl))]

theorem dropWhile_append_pos (p : Char → Bool) (x y : Text) (h : x.dropWhile p ≠ []) :
    (x ++ y).dropWhile p = x.dropWhile p ++ y := by
  induction x with
  | nil => exact absurd rfl h
  | cons c x ih =>
    by_cases hc : p c = true
    · rw [List.cons_append, List.dropWhile_cons, if_pos hc, List.dropWhile_cons, if_pos hc]
      rw [List.dropWhile_cons, if_pos hc] at h
      exact ih h
    · rw [List.cons_append, List.dropWhile_cons, if_neg hc, List.dropWhile_cons, if_neg hc]
      rfl

theorem dropWhile_append_all (p : Char → Bool) (x y : Text) (h : ∀ c ∈ x, p c = true) :
    (x ++ y).dropWhile p = y.dropWhile p := by
  induction x with
  | nil => rfl
  | cons c x ih =>
    rw [List.cons_append, List.dropWhile_cons, if_pos (h c (List.mem_cons_self ..))]
    exact ih (fun d hd => h d (List.mem_cons_of_mem _ hd))

theorem dropWhile_head_not (p : Char → Bool) (x : Text) (c : Char) (r : Text)
    (h : x.dropWhile p = c :: r) : p c = false := by
  induction x with
  | nil => simp [List.dropWhile] at h
  | cons a x ih =>
    by_cases ha : p a = true
    · rw [List.dropWhile_cons, if_pos ha] at h
      exact ih h
    · rw [List.dropWhile_cons, if_neg ha] at h
      injection h with h1 h2
      subst h1
      rw [Bool.not_eq_true] at ha
      exact ha

theorem dropWhile_dropWhile (p : Char → Bool) (x : Text) :
    (x.dropWhile p).dropWhile p = x.dropWhile p := by
  cases h : x.dropWhile p with
  | nil => rfl
  | cons c r =>
    rw [List.dropWhile_cons, if_neg (by rw [dropWhile_head_not p x c r h]; simp)]

/-!
Blank lines, stripping, and the substring relation.
-/

theorem nonblank_eq_false_iff (l : Text) :
    nonblank l = false ↔ ∀ c ∈ l, pySpace c = true := by
  simp [nonblank]

theorem dropWhile_ne_nil_of_nonblank (l : Text) (h : nonblank l = true) :
    l.dropWhile pySpace ≠ [] := by
  intro hnil
  rw [List.dropWhile_eq_nil_iff] at hnil
  have hb := (nonblank_eq_false_iff l).mpr hnil
  rw [h] at hb
  exact Bool.noConfusion hb

theorem nonblank_dropWhile (l : Text) (h : nonblank l = true) :
    nonblank (l.dropWhile pySpace) = true := by
  cases hd : l.dropWhile pySpace with
  | nil => exact absurd hd (dropWhile_ne_nil_of_nonblank l h)
  | cons c r =>
    have hc := dropWhile_head_not pySpace l c r hd
    simp [nonblank, List.any_cons, hc]

theorem nonblank_reverse (l : Text) : nonblank l.reverse = nonblank l := by
  simp [nonblank]

theorem nonblank_stripL (l : Text) (h : nonblank l = true) :
    nonblank (stripL l) = true := nonblank_dropWhile l h

theorem nonblank_stripR (l : Text) (h : nonblank l = true) :
    nonblank (stripR l) = true := by
  rw [stripR, nonblank_reverse]
  exact nonblank_dropWhile l.reverse (by rw [nonblank_reverse]; exact h)

theorem nonblank_strip (l : Text) (h : nonblank l = true) :
    nonblank (strip l) = true :=
  nonblank_stripR (stripL l) (nonblank_stripL l h)

theorem strip_eq_nil_of_blank (l : Text) (h : nonblank l = false) : strip l = [] := by
  have h1 : stripL l = [] := by
    rw [stripL, List.dropWhile_eq_nil_iff]
    exact (nonblank_eq_false_iff l).mp h
  rw [strip, h1]
  rfl

theorem strip_isEmpty_iff (l : Text) : (strip l).isEmpty = true ↔ nonblank l = false := by
  constructor
  · intro h
    cases hb : nonblank l with
    | false => rfl
    | true =>
      have := nonblank_strip l hb
      rw [List.isEmpty_iff] at h
      rw [h] at this
      simp [nonblank] at this
  · intro h
    rw [strip_eq_nil_of_blank l h]
    rfl

theorem leads_iff (p : Text) : ∀ l, leads p l = true ↔ ∃ v, l = p ++ v := by
  induction p with
  | nil => intro l; simp [leads]
  | cons a p ih =>
    intro l
    cases l with
    | nil =>
      simp [leads]
    | cons b l =>
      simp only [leads, Bool.and_eq_true, decide_eq_true_eq, ih, List.cons_append]
      constructor
      · rintro ⟨rfl, v, rfl⟩
        exact ⟨v, rfl⟩
      · rintro ⟨v, hv⟩
        injection hv with h1 h2
        exact ⟨h1.symm, v, h2⟩

theorem hasSub_iff (p : Text) : ∀ l, hasSub p l = true ↔ SubStr p l := by
  intro l
  induction l with
  | nil =>
    rw [show hasSub p [] = leads p [] from rfl, leads_iff]
    constructor
    · rintro ⟨v, hv⟩
      exact ⟨[], v, by simpa using hv⟩
    · rintro ⟨u, v, hv⟩
      refine ⟨v, ?_⟩
      rcases List.append_eq_nil.mp ((List.append_assoc u p v) ▸ hv.symm) with ⟨h1, h2⟩
      subst h1
      exact hv
  | cons c t ih =>
    rw [show hasSub p (c :: t) = (leads p (c :: t) || hasSub p t) from rfl]
    rw [Bool.or_eq_true, leads_iff, ih]
    constructor
    · rintro (⟨v, hv⟩ | ⟨u, v, hv⟩)
      · exact ⟨[], v, by simpa using hv⟩
      · exact ⟨c :: u, v, by simp [hv]⟩
    · rintro ⟨u, v, hv⟩
      cases u with
      | nil => exact Or.inl ⟨v, by simpa using hv⟩
      | cons x u =>
        rw [List.cons_append, List.cons_append] at hv
        injection hv with h1 h2
        exact Or.inr ⟨u, v, h2⟩

theorem SubStr_mono (p l u v : Text) (h : SubStr p l) : SubStr p (u ++ l ++ v) := by
  obtain ⟨a, b, rfl⟩ := h
  exact ⟨u ++ a, b ++ v, by simp⟩

theorem stripL_sandwich (l : Text) : ∃ u v, l = u ++ stripL l ++ v :=
  ⟨l.takeWhile pySpace, [], by
    rw [List.append_nil, stripL, List.takeWhile_append_dropWhile]⟩

theorem stripR_sandwich (l : Text) : ∃ u v, l = u ++ stripR l ++ v := by
  refine ⟨[], (l.reverse.takeWhile pySpace).reverse, ?_⟩
  rw [List.nil_append, stripR, ← List.reverse_append, List.takeWhile_append_dropWhile,
    List.reverse_reverse]

theorem strip_sandwich (l : Text) : ∃ u v, l = u ++ strip l ++ v := by
  obtain ⟨u1, v1, h1⟩ := stripL_sandwich l
  obtain ⟨u2, v2, h2⟩ := stripR_sandwich (stripL l)
  refine ⟨u1 ++ u2, v2 ++ v1, ?_⟩
  conv_lhs => rw [h1]
  rw [strip]
  conv_lhs => rw [h2]
  simp [List.append_assoc]

theorem variant_sandwich (l l' : Text)
    (h : l' = l ∨ l' = stripL l ∨ l' = stripR l ∨ l' = stripR (stripL l)) :
    ∃ u v, l = u ++ l' ++ v := by
  rcases h with rfl | rfl | rfl | rfl
  · exact ⟨[], [], by simp⟩
  · exact stripL_sandwich l
  · exact stripR_sandwich l
  · exact strip_sandwich l

/-!
How `strip` acts on a newline-joined list of lines: leading whitespace-only
lines are absorbed and the first surviving line is left-stripped
(`stripLeadLines`); symmetrically at the end (`stripTrailLines`).
-/

theorem stripLeadLines_ne_nil (K : List Text) (h : K ≠ []) : stripLeadLines K ≠ [] := by
  induction K with
  | nil => exact absurd rfl h
  | cons x K ih =>
    cases K with
    | nil => simp [stripLeadLines]
    | cons y ls =>
      rw [show stripLeadLines (x :: y :: ls) =
        if nonblank x then stripL x :: y :: ls else stripLeadLines (y :: ls) from rfl]
      split
      · simp
      · exact ih (by simp)

theorem mem_stripLeadLines (K : List Text) (m : Text) (h : m ∈ stripLeadLines K) :
    ∃ l ∈ K, m = stripL l ∨ m = l := by
  induction K with
  | nil => simp [stripLeadLines] at h
  | cons x K ih =>
    cases K with
    | nil =>
      simp only [stripLeadLines, List.mem_singleton] at h
      exact ⟨x, List.mem_cons_self .., Or.inl h⟩
    | cons y ls =>
      rw [show stripLeadLines (x :: y :: ls) =
        if nonblank x then stripL x :: y :: ls else stripLeadLines (y :: ls) from rfl] at h
      split at h
      · rcases List.mem_cons.mp h with h1 | h1
        · exact ⟨x, List.mem_cons_self .., Or.inl h1⟩
        · exact ⟨m, List.mem_cons_of_mem x h1, Or.inr rfl⟩
      · obtain ⟨l, hl, hor⟩ := ih h
        exact ⟨l, List.mem_cons_of_mem x hl, hor⟩

theorem stripL_joinNl (K : List Text) (hne : K ≠ []) (hfree : ∀ l ∈ K, '\n' ∉ l) :
    stripL (joinNl K) = joinNl (stripLeadLines K) := by
  induction K with
  | nil => exact absurd rfl hne
  | cons x K ih =>
    cases K with
    | nil => rfl
    | cons y ls =>
      rw [joinNl_cons_cons]
      rw [show stripLeadLines (x :: y :: ls) =
        if nonblank x then stripL x :: y :: ls else stripLeadLines (y :: ls) from rfl]
      by_cases hb : nonblank x = true
      · rw [if_pos hb, stripL,
          dropWhile_append_pos pySpace x _ (dropWhile_ne_nil_of_nonblank x hb),
          joinNl_cons_cons]
        rfl
      · rw [if_neg (by simpa using hb), stripL,
          dropWhile_append_all pySpace x _
            ((nonblank_eq_false_iff x).mp (by simpa using hb)),
          List.dropWhile_cons, if_pos (by decide)]
        exact ih (by simp) (fun l hl => hfree l (List.mem_cons_of_mem x hl))

theorem not_nl_stripL (l : Text) (h : '\n' ∉ l) : '\n' ∉ stripL l :=
  fun hm => h ((List.dropWhile_sublist _).subset hm)

theorem not_nl_stripR (l : Text) (h : '\n' ∉ l) : '\n' ∉ stripR l := by
  intro hm
  rw [stripR, List.mem_reverse] at hm
  exact h (List.mem_reverse.mp ((List.dropWhile_sublist _).subset hm))

theorem joinNl_concat (K : List Text) (y : Text) (hne : K ≠ []) :
    joinNl (K ++ [y]) = joinNl K ++ '\n' :: y := by
  induction K with
  | nil => exact absurd rfl hne
  | cons x K ih =>
    cases K with
    | nil => rfl
    | cons z ls =>
      calc joinNl ((x :: z :: ls) ++ [y])
          = x ++ '\n' :: joinNl (z :: (ls ++ [y])) := joinNl_cons_cons ..
        _ = x ++ '\n' :: (joinNl (z :: ls) ++ '\n' :: y) := by
            rw [show z :: (ls ++ [y]) = (z :: ls) ++ [y] from rfl, ih (by simp)]
        _ = (x ++ '\n' :: joinNl (z :: ls)) ++ '\n' :: y := by
            simp [List.append_assoc]
        _ = joinNl (x :: z :: ls) ++ '\n' :: y := by rw [joinNl_cons_cons]

theorem reverse_joinNl (K : List Text) :
    (joinNl K).reverse = joinNl ((K.map List.reverse).reverse) := by
  induction K with
  | nil => rfl
  | cons x K ih =>
    cases K with
    | nil => rfl
    | cons y ls =>
      rw [joinNl_cons_cons, List.reverse_append, List.reverse_cons]
      rw [show (x :: y :: ls).map List.reverse =
        x.reverse :: (y :: ls).map List.reverse from rfl]
      rw [List.reverse_cons]
      rw [joinNl_concat _ _ (by simp)]
      rw [← ih]
      simp [List.append_assoc]

theorem stripR_joinNl (K : List Text) (hne : K ≠ []) (hfree : ∀ l ∈ K, '\n' ∉ l) :
    stripR (joinNl K) = joinNl (stripTrailLines K) := by
  have hMne : (K.map List.reverse).reverse ≠ [] := by
    simp [hne]
  have hMfree : ∀ l ∈ (K.map List.reverse).reverse, '\n' ∉ l := by
    intro l hl
    rw [List.mem_reverse, List.mem_map] at hl
    obtain ⟨a, ha, rfl⟩ := hl
    rw [List.mem_reverse]
    exact hfree a ha
  calc stripR (joinNl K)
      = ((joinNl K).reverse.dropWhile pySpace).reverse := rfl
    _ = (stripL (joinNl ((K.map List.reverse).reverse))).reverse := by
        rw [reverse_joinNl]; rfl
    _ = (joinNl (stripLeadLines ((K.map List.reverse).reverse))).reverse := by
        rw [stripL_joinNl _ hMne hMfree]
    _ = joinNl (stripTrailLines K) := by
        rw [reverse_joinNl]; rfl

theorem stripTrailLines_ne_nil (K : List Text) (h : K ≠ []) : stripTrailLines K ≠ [] := by
  rw [stripTrailLines]
  have := stripLeadLines_ne_nil ((K.map List.reverse).reverse) (by simp [h])
  simp [this]

theorem mem_stripTrailLines (K : List Text) (m : Text) (h : m ∈ stripTrailLines K) :
    ∃ l ∈ K, m = stripR l ∨ m = l := by
  rw [stripTrailLines, List.mem_reverse, List.mem_map] at h
  obtain ⟨w, hw, rfl⟩ := h
  obtain ⟨l0, hl0, hor⟩ := mem_stripLeadLines _ _ hw
  rw [List.mem_reverse, List.mem_map] at hl0
  obtain ⟨a, ha, rfl⟩ := hl0
  rcases hor with h1 | h1
  · subst h1
    exact ⟨a, ha, Or.inl rfl⟩
  · subst h1
    exact ⟨a, ha, Or.inr (List.reverse_reverse a)⟩

theorem splitNl_strip_joinNl (K : List Text) (hne : K ≠ [])
    (hfree : ∀ l ∈ K, '\n' ∉ l) :
    splitNl (strip (joinNl K)) = stripTrailLines (stripLeadLines K) := by
  have hne1 : stripLeadLines K ≠ [] := stripLeadLines_ne_nil K hne
  have hfree1 : ∀ l ∈ stripLeadLines K, '\n' ∉ l := by
    intro l hl
    obtain ⟨l0, hl0, hor⟩ := mem_stripLeadLines K l hl
    rcases hor with rfl | rfl
    · exact not_nl_stripL _ (hfree _ hl0)
    · exact hfree _ hl0
  have hne2 : stripTrailLines (stripLeadLines K) ≠ [] := stripTrailLines_ne_nil _ hne1
  have hfree2 : ∀ l ∈ stripTrailLines (stripLeadLines K), '\n' ∉ l := by
    intro l hl
    obtain ⟨l0, hl0, hor⟩ := mem_stripTrailLines _ l hl
    rcases hor with rfl | rfl
    · exact not_nl_stripR _ (hfree1 _ hl0)
    · exact hfree1 _ hl0
  rw [strip, stripL_joinNl K hne hfree, stripR_joinNl _ hne1 hfree1]
  exact splitNl_joinNl _ hne2 hfree2

theorem mem_lines_strip_joinNl (K : List Text) (hne : K ≠ [])
    (hfree : ∀ l ∈ K, '\n' ∉ l) (m : Text) (h : m ∈ splitNl (strip (joinNl K))) :
    ∃ l ∈ K, m = l ∨ m = stripL l ∨ m = stripR l ∨ m = stripR (stripL l) := by
  rw [splitNl_strip_joinNl K hne hfree] at h
  obtain ⟨w, hw, hor1⟩ := mem_stripTrailLines _ _ h
  obtain ⟨l, hl, hor2⟩ := mem_stripLeadLines _ _ hw
  rcases hor1 with h1 | h1 <;> rcases hor2 with h2 | h2
  · exact ⟨l, hl, Or.inr (Or.inr (Or.inr (by rw [h1, h2])))⟩
  · exact ⟨l, hl, Or.inr (Or.inr (Or.inl (by rw [h1, h2])))⟩
  · exact ⟨l, hl, Or.inr (Or.inl (by rw [h1, h2]))⟩
  · exact ⟨l, hl, Or.inl (by rw [h1, h2])⟩

/-!
Idempotence of stripping and closure of the keep predicates, leading to the
filtering claims.
-/

theorem stripR_append (u : Text) : ∃ v, u = stripR u ++ v := by
  refine ⟨(u.reverse.takeWhile pySpace).reverse, ?_⟩
  rw [stripR, ← List.reverse_append, List.takeWhile_append_dropWhile, List.reverse_reverse]

theorem stripL_eq_self_head (u : Text) (c : Char) (r : Text) (h : stripL u = u)
    (hu : u = c :: r) : pySpace c = false := by
  subst hu
  by_cases hc : pySpace c = true
  · rw [stripL, List.dropWhile_cons, if_pos hc] at h
    have hlen : (r.dropWhile pySpace).length ≤ r.length :=
      (List.dropWhile_sublist _).length_le
    rw [h] at hlen
    simp at hlen
  · rw [Bool.not_eq_true] at hc
    exact hc

theorem stripL_stripR_of_stripL_eq (u : Text) (h : stripL u = u) :
    stripL (stripR u) = stripR u := by
  cases hr : stripR u with
  | nil => rfl
  | cons c r2 =>
    obtain ⟨v, hu⟩ := stripR_append u
    rw [hr] at hu
    have hc : pySpace c = false :=
      stripL_eq_self_head u c (r2 ++ v) h (by simpa using hu)
    rw [stripL, List.dropWhile_cons, if_neg (by simp [hc])]

theorem stripR_stripR (u : Text) : stripR (stripR u) = stripR u := by
  show (((u.reverse.dropWhile pySpace).reverse).reverse.dropWhile pySpace).reverse = _
  rw [List.reverse_reverse, dropWhile_dropWhile]
  rfl

theorem strip_strip (t : Text) : strip (strip t) = strip t := by
  rw [strip, strip]
  rw [stripL_stripR_of_stripL_eq (stripL t) (dropWhile_dropWhile pySpace t)]
  exact stripR_stripR (stripL t)

theorem noiseFree_closed (ph : List Text) (l m : Text) (hsand : ∃ u v, l = u ++ m ++ v)
    (h : ph.any (fun q => hasSub q l) = false) :
    ph.any (fun q => hasSub q m) = false := by
  obtain ⟨u, v, rfl⟩ := hsand
  rw [List.any_eq_false] at h ⊢
  intro q hq hc
  exact h q hq ((hasSub_iff q _).mpr (SubStr_mono q m u v ((hasSub_iff q m).mp hc)))

theorem stdoutKeep_closed (l m : Text) (hsand : ∃ u v, l = u ++ m ++ v)
    (h : stdoutKeep l = true) : stdoutKeep m = true := by
  rw [stdoutKeep, Bool.not_eq_true'] at h ⊢
  exact noiseFree_closed stdout_noise l m hsand h

theorem strip_isEmpty_false_iff (l : Text) :
    (strip l).isEmpty = false ↔ nonblank l = true := by
  constructor
  · intro h
    cases hb : nonblank l with
    | true => rfl
    | false =>
      rw [strip_eq_nil_of_blank l hb] at h
      exact Bool.noConfusion h
  · intro h
    cases he : (strip l).isEmpty with
    | false => rfl
    | true =>
      have hb := (strip_isEmpty_iff l).mp he
      rw [h] at hb
      exact Bool.noConfusion hb

theorem nonblank_variant (l m : Text)
    (hvar : m = l ∨ m = stripL l ∨ m = stripR l ∨ m = stripR (stripL l))
    (h : nonblank l = true) : nonblank m = true := by
  rcases hvar with rfl | rfl | rfl | rfl
  · exact h
  · exact nonblank_stripL l h
  · exact nonblank_stripR l h
  · exact nonblank_stripR _ (nonblank_stripL l h)

theorem stderrKeep_variant (l m : Text)
    (hvar : m = l ∨ m = stripL l ∨ m = stripR l ∨ m = stripR (stripL l))
    (h : stderrKeep l = true) : stderrKeep m = true := by
  rw [stderrKeep, Bool.and_eq_true] at h
  obtain ⟨h1, h2⟩ := h
  rw [stderrKeep, Bool.and_eq_true]
  constructor
  · rw [Bool.not_eq_true'] at h1 ⊢
    exact noiseFree_closed stderr_noise l m (variant_sandwich l m hvar) h1
  · rw [Bool.not_eq_true'] at h2 ⊢
    rw [strip_isEmpty_false_iff] at h2 ⊢
    exact nonblank_variant l m hvar h2

theorem mem_splitNl_filter_stdout (s m : Text) (h : m ∈ splitNl (filter_stdout s)) :
    stdoutKeep m = true := by
  by_cases hK : keptStdout s = []
  · rw [filter_stdout, hK] at h
    have hm : m = [] := List.mem_singleton.mp h
    subst hm
    decide
  · have hfree : ∀ l ∈ keptStdout s, '\n' ∉ l := fun l hl =>
      not_nl_mem_splitNl s l (List.mem_of_mem_filter hl)
    obtain ⟨l, hl, hvar⟩ := mem_lines_strip_joinNl (keptStdout s) hK hfree m h
    exact stdoutKeep_closed l m (variant_sandwich l m hvar) (List.mem_filter.mp hl).2

/-- C8: both output filters are idempotent: filtering already-filtered
stdout or stderr text yields it unchanged. -/
theorem c8_filters_idempotent (s : Text) :
    filter_stdout (filter_stdout s) = filter_stdout s ∧
    filter_stderr (filter_stderr s) = filter_stderr s := by
  constructor
  · have hall : ∀ m ∈ splitNl (filter_stdout s), stdoutKeep m = true :=
      fun m hm => mem_splitNl_filter_stdout s m hm
    show strip (joinNl ((splitNl (filter_stdout s)).filter stdoutKeep)) = filter_stdout s
    rw [List.filter_eq_self.mpr hall, joinNl_splitNl, filter_stdout]
    exact strip_strip _
  · by_cases hK : keptStderr s = []
    · have h0 : filter_stderr s = [] := by
        rw [filter_stderr, hK]
        rfl
      rw [h0]
      decide
    · have hfree : ∀ l ∈ keptStderr s, '\n' ∉ l := fun l hl =>
        not_nl_mem_splitNl s l (List.mem_of_mem_filter hl)
      have hall : ∀ m ∈ splitNl (filter_stderr s), stderrKeep m = true := by
        intro m hm
        rw [filter_stderr] at hm
        obtain ⟨l, hl, hvar⟩ := mem_lines_strip_joinNl (keptStderr s) hK hfree m hm
        exact stderrKeep_variant l m hvar (List.mem_filter.mp hl).2
      show strip (joinNl ((splitNl (filter_stderr s)).filter stderrKeep)) = filter_stderr s
      rw [List.filter_eq_self.mpr hall, joinNl_splitNl, filter_stderr]
      exact strip_strip _

/-- Counterexample to C4: the stdout filter does not drop blank lines.  A
blank interior line survives stdout filtering unchanged, while the stderr
filter drops it. -/
theorem c4_counterexample :
    filter_stdout ("a\n\nb".data) = "a\n\nb".data ∧
    ([] : Text) ∈ splitNl (filter_stdout ("a\n\nb".data)) ∧
    filter_stderr ("a\n\nb".data) = "a\nb".data := by
  decide

/-- C4 amended: filtering is line-based, substring-match, case-sensitive
and order-preserving for both streams (the kept lines are a sublist of the
input lines, and no kept line contains a noise phrase); blank lines are
dropped only by the stderr filter; and the final joined text of both
filters has leading and trailing whitespace trimmed. -/
theorem c4_filter_shape (s : Text) :
    List.Sublist (keptStdout s) (splitNl s) ∧
    List.Sublist (keptStderr s) (splitNl s) ∧
    (keptStdout s).all (fun l => !(stdout_noise.any (fun q => hasSub q l))) = true ∧
    (keptStderr s).all
      (fun l => !(stderr_noise.any (fun q => hasSub q l)) && !(strip l).isEmpty) = true ∧
    strip (filter_stdout s) = filter_stdout s ∧
    strip (filter_stderr s) = filter_stderr s := by
  refine ⟨List.filter_sublist _, List.filter_sublist _, ?_, ?_, ?_, ?_⟩
  · rw [List.all_eq_true]
    intro l hl
    exact (List.mem_filter.mp hl).2
  · rw [List.all_eq_true]
    intro l hl
    exact (List.mem_filter.mp hl).2
  · rw [filter_stdout]
    exact strip_strip _
  · rw [filter_stderr]
    exact strip_strip _

/-- C10: every line containing the substring KeyAvailable is dropped by the
stdout filter: such a line is never kept, and no line of the filtered
stdout contains that substring. -/
theorem c10_keyavailable_dropped (s : Text) :
    (splitNl s).all
      (fun l => !(hasSub ("KeyAvailable".data) l) || !(stdoutKeep l)) = true ∧
    (splitNl (filter_stdout s)).all
      (fun l => !(hasSub ("KeyAvailable".data) l)) = true := by
  constructor
  · rw [List.all_eq_true]
    intro l _
    cases hc : hasSub ("KeyAvailable".data) l with
    | false => rfl
    | true =>
      have hany : stdout_noise.any (fun q => hasSub q l) = true :=
        List.any_eq_true.mpr ⟨"KeyAvailable".data, by decide, hc⟩
      have hk : stdoutKeep l = false := by
        rw [stdoutKeep, hany]
        rfl
      rw [hk]
      rfl
  · rw [List.all_eq_true]
    intro m hm
    have hk := mem_splitNl_filter_stdout s m hm
    rw [stdoutKeep, Bool.not_eq_true'] at hk
    rw [List.any_eq_false] at hk
    have hno := hk ("KeyAvailable".data) (by decide)
    cases h3 : hasSub ("KeyAvailable".data) m with
    | false => rfl
    | true => exact absurd h3 hno

end RunDoctr
